import Mathlib

/-!
# Verification of gb-show core logic

A shallow embedding, in Lean 4, of the core logic of the `gb-show`
command-line tool: the response cache (eviction and debounced flush), the
rate-limited API client (URL construction and the busy-flag / rate-limit
discipline), the catalog builder (year and game season partitions, the
year-boundary correction pass, the preferred-partition policy), the anchor
resolver, and the range compositor.

Each definition is translated from the TypeScript source.  External
collaborators (the `querystring` encoder, `Date` parsing, regular-expression
matching of literal patterns, and the remote API) are modelled at their
interface: query encoding as literal `key=value` joining, timestamps as
integers, and literal-pattern regex matching as case-insensitive substring
containment.
-/

namespace GbShow

/-! ## Cache data model (src/api/cache.ts)

`CachedCall` records one `(path, date)` call record; `CacheData` is the
append-ordered call list plus the path-keyed response map (modelled as an
association list). Timestamps are integer milliseconds. -/

/-- A response value paired with its stored-at date (`CachedResponse`). -/
structure CachedResponse where
  response : String
  date : Int
  deriving Repr, DecidableEq

/-- One call record: the (credential-stripped) path and the stored-at date. -/
structure CachedCall where
  path : String
  date : Int
  deriving Repr, DecidableEq

/-- The cache's internal state: append-ordered call records (oldest first)
and a path-to-response association list. -/
structure CacheData where
  calls : List CachedCall
  responses : List (String × CachedResponse)
  deriving Repr, DecidableEq

/-- `findIndex`-style search: index of the first call record whose date is
at or after `keepFrom`, or `none` (JS `-1`) if there is none. -/
def keepFromIndex (keepFrom : Int) : List CachedCall → Option Nat
  | [] => none
  | c :: rest =>
    if keepFrom ≤ c.date then some 0
    else (keepFromIndex keepFrom rest).map (· + 1)

/-- `evictData` (src/api/cache.ts lines 33-59): compute
`keepFrom = now - cache_duration_ms`, find the first call record with
`date >= keepFrom`; if that index is `-1` drop everything, if it is `0` (or
the call list is empty) do nothing, otherwise delete the responses of the
first `keepFromIndex` call records and drop those records. -/
def evictData (now ttl : Int) (data : CacheData) : CacheData :=
  match keepFromIndex (now - ttl) data.calls with
  | none =>
    if data.calls.isEmpty then data
    else { calls := [], responses := [] }
  | some i =>
    if i = 0 then data
    else
      let evictedPaths := (data.calls.take i).map CachedCall.path
      { calls := data.calls.drop i,
        responses := data.responses.filter (fun kv => kv.1 ∉ evictedPaths) }

lemma keepFromIndex_eq_none {kf : Int} {l : List CachedCall} :
    keepFromIndex kf l = none ↔ ∀ c ∈ l, c.date < kf := by
  induction l with
  | nil => simp [keepFromIndex]
  | cons c rest ih =>
    by_cases h : kf ≤ c.date
    · simp only [keepFromIndex, if_pos h]
      constructor
      · intro hcon
        exact absurd hcon (by simp)
      · intro hall
        exact absurd h (not_le.mpr (hall c (by simp)))
    · simp [keepFromIndex, h, Option.map_eq_none', ih, not_le.mp h]

lemma keepFromIndex_lt_length {kf : Int} {l : List CachedCall} {i : Nat}
    (h : keepFromIndex kf l = some i) : i < l.length := by
  induction l generalizing i with
  | nil => simp [keepFromIndex] at h
  | cons c rest ih =>
    by_cases hc : kf ≤ c.date
    · rw [keepFromIndex, if_pos hc] at h
      cases h
      simp
    · simp only [keepFromIndex, if_neg hc, Option.map_eq_some'] at h
      obtain ⟨j, hj, rfl⟩ := h
      have := ih hj
      simp only [List.length_cons]
      omega

lemma keepFromIndex_take {kf : Int} {l : List CachedCall} {i : Nat}
    (h : keepFromIndex kf l = some i) : ∀ c ∈ l.take i, c.date < kf := by
  induction l generalizing i with
  | nil => simp
  | cons c rest ih =>
    by_cases hc : kf ≤ c.date
    · simp [keepFromIndex, hc] at h
      subst h
      simp
    · simp only [keepFromIndex, if_neg hc, Option.map_eq_some'] at h
      obtain ⟨j, hj, rfl⟩ := h
      intro x hx
      simp [List.take_cons] at hx
      rcases hx with rfl | hx
      · exact not_le.mp hc
      · exact ih hj x hx

/-- C4: on a cache whose call list is ascending by timestamp, `evictData`
computes `keepFrom = now - ttl`, finds the first call record with
`storedAt >= keepFrom`, and (1) removes every call/response pair when no
record qualifies, (2) removes nothing when the first record already
qualifies, (3) in general drops exactly the call records strictly before
the found index together with the responses stored under their paths, and
(4) preserves every call record whose date is at or after the threshold
(boundary inclusive). -/
theorem evictData_spec (now ttl : Int) (d : CacheData)
    (_hasc : d.calls.Chain' (fun a b => a.date ≤ b.date)) :
    (keepFromIndex (now - ttl) d.calls = none → d.calls ≠ [] →
      (evictData now ttl d).calls = [] ∧ (evictData now ttl d).responses = []) ∧
    (keepFromIndex (now - ttl) d.calls = some 0 → evictData now ttl d = d) ∧
    (∀ i, keepFromIndex (now - ttl) d.calls = some i →
      (evictData now ttl d).calls = d.calls.drop i ∧
      (evictData now ttl d).responses =
        d.responses.filter
          (fun kv => kv.1 ∉ (d.calls.take i).map CachedCall.path)) ∧
    (∀ c ∈ d.calls, now - ttl ≤ c.date → c ∈ (evictData now ttl d).calls) := by
  refine ⟨?_, ?_, ?_, ?_⟩
  · intro hnone hne
    simp [evictData, hnone, List.isEmpty_iff, hne]
  · intro h0
    simp [evictData, h0]
  · intro i hi
    unfold evictData
    rw [hi]
    dsimp only
    by_cases h0 : i = 0
    · subst h0
      constructor
      · simp
      · simp [List.filter_eq_self]
    · rw [if_neg h0]
      exact ⟨rfl, rfl⟩
  · intro c hc hdate
    match hidx : keepFromIndex (now - ttl) d.calls with
    | none =>
      exact absurd hdate (not_le.mpr (keepFromIndex_eq_none.mp hidx c hc))
    | some i =>
      unfold evictData
      rw [hidx]
      dsimp only
      by_cases h0 : i = 0
      · subst h0; simpa using hc
      · rw [if_neg h0]
        have hsplit : c ∈ d.calls.take i ++ d.calls.drop i := by
          rw [List.take_append_drop]; exact hc
        rcases List.mem_append.mp hsplit with htk | hdr
        · exact absurd hdate (not_le.mpr (keepFromIndex_take hidx c htk))
        · exact hdr

/-- Witness for `evictData_spec`: a two-record cache with dates 0 and 10,
`now = 15`, `ttl = 10`, so `keepFrom = 5` and the first qualifying index
is 1; eviction drops exactly the first call and its response. -/
theorem evictData_spec_witness :
    (evictData 15 10
        ⟨[⟨"a", 0⟩, ⟨"b", 10⟩], [("a", ⟨"ra", 0⟩), ("b", ⟨"rb", 10⟩)]⟩).calls
      = [⟨"b", 10⟩] ∧
    (evictData 15 10
        ⟨[⟨"a", 0⟩, ⟨"b", 10⟩], [("a", ⟨"ra", 0⟩), ("b", ⟨"rb", 10⟩)]⟩).responses
      = [("b", ⟨"rb", 10⟩)] := by
  have h := evictData_spec 15 10
    ⟨[⟨"a", 0⟩, ⟨"b", 10⟩], [("a", ⟨"ra", 0⟩), ("b", ⟨"rb", 10⟩)]⟩
    (by norm_num [List.chain'_cons])
  have h1 := (h.2.2.1 1 (by decide)).1
  have h2 := (h.2.2.1 1 (by decide)).2
  rw [h1, h2]
  exact ⟨by decide, by decide⟩

/-! ## Debounced flush (src/api/cache.ts lines 61-90)

`flushData` bumps a per-file monotonic counter, snapshots the cache state
under that counter and marks a write pending; when the delayed write fires
it only writes if its captured counter is still current. -/

/-- The per-cache-file flush bookkeeping (`flushOpts[filename]`): the last
scheduled counter, the snapshot taken at schedule time, and whether a write
is pending. -/
structure FlushFile where
  counter : Nat
  snapshot : CacheData
  pending : Bool
  deriving Repr, DecidableEq

/-- The scheduling half of `flushData`: compute the next counter (0 when
the file has no flush record yet, otherwise previous + 1), store the
snapshot under it and mark a write pending. Returns the new record and the
counter value captured by the scheduled delayed write. -/
def scheduleFlush (fs : Option FlushFile) (snap : CacheData) : FlushFile × Nat :=
  match fs with
  | none => (⟨0, snap, true⟩, 0)
  | some f => (⟨f.counter + 1, snap, true⟩, f.counter + 1)

/-- The firing half of `flushData`: when the delayed write fires with its
captured counter, it writes the currently-stored snapshot only if the
captured counter is still the current one; otherwise it is a no-op.
Returns the disk write performed (if any) and the updated record. -/
def fireFlush (f : FlushFile) (captured : Nat) : Option CacheData × FlushFile :=
  if captured = f.counter then (some f.snapshot, { f with pending := false })
  else (none, f)

/-- Run `k` rapid `put`-side schedules (one per snapshot in `snaps`),
threading the flush record and collecting the captured counters. -/
def schedulePuts : Option FlushFile → List CacheData → Option FlushFile × List Nat
  | fs, [] => (fs, [])
  | fs, snap :: rest =>
    ((schedulePuts (some (scheduleFlush fs snap).1) rest).1,
     (scheduleFlush fs snap).2 ::
       (schedulePuts (some (scheduleFlush fs snap).1) rest).2)

/-- Fire the delayed writes for the given captured counters in order,
threading the flush record and collecting the disk writes performed. -/
def fireAll : FlushFile → List Nat → List CacheData × FlushFile
  | f, [] => ([], f)
  | f, c :: rest =>
    ((fireFlush f c).1.toList ++ (fireAll (fireFlush f c).2 rest).1,
     (fireAll (fireFlush f c).2 rest).2)

lemma schedulePuts_counter (snaps : List CacheData) : ∀ f0 : FlushFile,
    ∃ snap p, (schedulePuts (some f0) snaps).1 =
      some ⟨f0.counter + snaps.length, snap, p⟩ := by
  induction snaps with
  | nil =>
    intro f0
    exact ⟨f0.snapshot, f0.pending, rfl⟩
  | cons s rest ih =>
    intro f0
    obtain ⟨snap, p, hp⟩ := ih ⟨f0.counter + 1, s, true⟩
    refine ⟨snap, p, ?_⟩
    rw [schedulePuts]
    dsimp only [scheduleFlush]
    rw [hp]
    simp only [List.length_cons, Option.some.injEq, FlushFile.mk.injEq, and_true]
    omega

lemma fireAll_schedulePuts (snaps : List CacheData) (fs0 : Option FlushFile)
    (hne : snaps ≠ []) :
    ∀ f, (schedulePuts fs0 snaps).1 = some f →
      (fireAll f (schedulePuts fs0 snaps).2).1 = [snaps.getLast hne] := by
  induction snaps generalizing fs0 with
  | nil => exact absurd rfl hne
  | cons s rest ih =>
    intro f hf
    cases rest with
    | nil =>
      cases fs0 with
      | none =>
        simp only [schedulePuts, scheduleFlush] at hf ⊢
        cases hf
        simp [fireAll, fireFlush]
      | some f0 =>
        simp only [schedulePuts, scheduleFlush] at hf ⊢
        cases hf
        simp [fireAll, fireFlush]
    | cons s' rest' =>
      rw [List.getLast_cons (by simp)]
      rw [schedulePuts] at hf ⊢
      dsimp only at hf ⊢
      have hrec := ih (some (scheduleFlush fs0 s).1) (by simp) f hf
      rw [fireAll]
      obtain ⟨snap, p, hp⟩ := schedulePuts_counter (s' :: rest') (scheduleFlush fs0 s).1
      rw [hf] at hp
      injection hp with hp
      have hne2 : (scheduleFlush fs0 s).2 ≠ f.counter := by
        have h2 : (scheduleFlush fs0 s).2 = (scheduleFlush fs0 s).1.counter := by
          cases fs0 <;> rfl
        rw [h2, hp]
        dsimp only
        simp only [List.length_cons]
        omega
      rw [fireFlush, if_neg hne2]
      simpa using hrec

/-- C5: if `k` put calls are scheduled in a row on one cache file before
the flush delay elapses (so every delayed write fires only after the last
put), firing all the scheduled delayed writes performs exactly one disk
write, whose content is the snapshot taken at the `k`-th put; and any
scheduled write whose captured counter has been superseded (differs from
the current counter) executes as a no-op, so a later put interleaved with
an earlier flush timer never produces a stale write. -/
theorem flush_debounce (snaps : List CacheData) (fs0 : Option FlushFile)
    (hne : snaps ≠ []) :
    (∀ f, (schedulePuts fs0 snaps).1 = some f →
      (fireAll f (schedulePuts fs0 snaps).2).1 = [snaps.getLast hne]) ∧
    (∀ (g : FlushFile) (c : Nat), c ≠ g.counter → (fireFlush g c).1 = none) := by
  refine ⟨fireAll_schedulePuts snaps fs0 hne, ?_⟩
  intro g c hc
  simp [fireFlush, hc]

/-- Witness for `flush_debounce`: three rapid puts with distinct snapshots
on a fresh cache file produce exactly one write, containing the third
snapshot. -/
theorem flush_debounce_witness :
    (fireAll
        ⟨2, ⟨[], [("c", ⟨"rc", 2⟩)]⟩, true⟩
        (schedulePuts none
          [⟨[], [("a", ⟨"ra", 0⟩)]⟩, ⟨[], [("b", ⟨"rb", 1⟩)]⟩,
           ⟨[], [("c", ⟨"rc", 2⟩)]⟩]).2).1
      = [⟨[], [("c", ⟨"rc", 2⟩)]⟩] := by
  have h := flush_debounce
    [⟨[], [("a", ⟨"ra", 0⟩)]⟩, ⟨[], [("b", ⟨"rb", 1⟩)]⟩, ⟨[], [("c", ⟨"rc", 2⟩)]⟩]
    none (by decide)
  exact h.1 ⟨2, ⟨[], [("c", ⟨"rc", 2⟩)]⟩, true⟩ (by decide)

/-! ## Catalog data model (src/commands/utils/catalog.ts)

Episodes carry the fields selected by `catalog.create` (`id`, `guid`,
`associations`, `name`, `publish_date`).  Two external collaborators are
modelled at their interface: `new Date(publish_date + 'Z').getTime()` is
modelled by the integer field `time`, and matching a string against a
regex built from a literal pattern with flags `ig` is modelled as
case-insensitive substring containment. -/

/-- One entry of a video's `associations` array. -/
structure GbAssociation where
  name : String
  api_detail_url : String
  deriving Repr, DecidableEq

/-- A catalog episode (`CatalogEpisode`): `time` models the parsed
timestamp of `publish_date`. -/
structure Ep where
  id : Nat
  guid : String
  name : String
  publish_date : String
  time : Int
  associations : List GbAssociation
  deriving Repr, DecidableEq

/-- `hay.includes(pat)` (substring containment). -/
def strContains (hay pat : String) : Bool :=
  decide (pat.data <:+: hay.data)

/-- `hay.match(RegExp(pat, 'ig'))` for a literal pattern `pat`:
case-insensitive substring containment. -/
def strContainsCI (hay pat : String) : Bool :=
  decide ((pat.data.map Char.toLower) <:+: (hay.data.map Char.toLower))

/-- A catalog season: a name and its ordered episode list. -/
structure CatalogSeason where
  name : String
  episodes : List Ep
  deriving Repr, DecidableEq

/-- The two season partition kinds (`CatalogSeasonType`): `years` or
`games`. -/
inductive SeasonType where
  | years
  | games
  deriving Repr, DecidableEq

/-- `(episode.publish_date || '1990').split('-')[0]`: the year label of an
episode (the characters before the first dash). -/
def epYear (e : Ep) : String :=
  ⟨(if e.publish_date = "" then "1990" else e.publish_date).data.takeWhile
    (fun c => c ≠ '-')⟩

/-- The year-season walk of `catalog.create` (template.ts lines 206-222):
starting from the `__stub__` sentinel season (which is never pushed into
the output), each episode either extends the current season (same year
label), or — when its year differs — starts a new season unless
`copy_year` is unset and the episode's name matches the current season's
label as a case-insensitive regex, in which case it is folded into the
current season.  `isStub` tracks whether the current season is still the
unpushed sentinel. -/
def yearSeasonsGo (copy_year : Bool) (curName : String) (curEps : List Ep)
    (isStub : Bool) : List Ep → List CatalogSeason
  | [] => if isStub then [] else [⟨curName, curEps⟩]
  | e :: rest =>
    if epYear e = curName then
      yearSeasonsGo copy_year curName (curEps ++ [e]) isStub rest
    else if copy_year || !(strContainsCI e.name curName) then
      if isStub then yearSeasonsGo copy_year (epYear e) [e] false rest
      else ⟨curName, curEps⟩ :: yearSeasonsGo copy_year (epYear e) [e] false rest
    else
      yearSeasonsGo copy_year curName (curEps ++ [e]) isStub rest

/-- The year seasons before boundary correction. -/
def yearSeasonsRaw (copy_year : Bool) (eps : List Ep) : List CatalogSeason :=
  yearSeasonsGo copy_year "__stub__" [] true eps

/-- The first association whose `api_detail_url` contains `/game/`, mapped
to its display name; the fixed label `None` when there is no such
association or its name is empty (JS falsy). -/
def gameOf (e : Ep) : String :=
  match e.associations.find? (fun a => strContains a.api_detail_url "/game/") with
  | some a => if a.name = "" then "None" else a.name
  | none => "None"

/-- Append an episode to the season named `n`, or create that season at the
end (first-occurrence order). -/
def addToGameSeason : List CatalogSeason → String → Ep → List CatalogSeason
  | [], n, e => [⟨n, [e]⟩]
  | s :: rest, n, e =>
    if s.name = n then ⟨s.name, s.episodes ++ [e]⟩ :: rest
    else s :: addToGameSeason rest n e

/-- The game-season grouping of `catalog.create` (template.ts lines
224-234). -/
def gameSeasons (eps : List Ep) : List CatalogSeason :=
  eps.foldl (fun gs e => addToGameSeason gs (gameOf e) e) []

/-! ## Year-boundary correction (template.ts lines 236-260) -/

/-- `1000 * 60 * 60 * 24 * 30` ms: one thirty-day month. -/
def monthMs : Int := 2592000000

/-- `month * 10.5` ms: the long-gap threshold. -/
def longGapMs : Int := 27216000000

/-- The split condition at a consecutive episode pair `(a, b)` of a
season, relative to the previous season's final timestamp `pl`:
`lastEDistance < month && eDistance > month * 10.5`. -/
def breakCond (pl : Int) (a b : Ep) : Prop :=
  a.time - pl < monthMs ∧ longGapMs < b.time - a.time

instance (pl : Int) (a b : Ep) : Decidable (breakCond pl a b) := by
  unfold breakCond; infer_instance

/-- Search the consecutive pairs `(a, bs[0]), (bs[0], bs[1]), ...` for the
first pair satisfying `breakCond`; the returned index counts from the pair
`(a, bs[0])` as `0`. -/
def findBreakGo (pl : Int) : Ep → List Ep → Option Nat
  | _, [] => none
  | a, b :: rest =>
    if breakCond pl a b then some 0
    else (findBreakGo pl b rest).map (· + 1)

/-- The break-point search of the correction pass: the first index `e ≥ 1`
within `eps` such that the pair `(eps[e-1], eps[e])` satisfies
`breakCond pl`. -/
def findBreak (pl : Int) : List Ep → Option Nat
  | [] => none
  | a :: rest => (findBreakGo pl a rest).map (· + 1)

/-- One step of the correction pass over the remaining seasons, with the
current (already corrected) previous season `prev`: when a break point `e`
is found in the next season relative to `prev`'s final timestamp, the
first `e` episodes move to `prev`; the (possibly shortened) next season
becomes the new `prev`.  An empty `prev` has an undefined final timestamp
(`NaN` in JS), for which every comparison is false, so no break is found. -/
def correctGo (prev : CatalogSeason) : List CatalogSeason → List CatalogSeason
  | [] => [prev]
  | cur :: rest =>
    match prev.episodes.getLast? with
    | none => prev :: correctGo cur rest
    | some pl =>
      match findBreak pl.time cur.episodes with
      | some e =>
        ⟨prev.name, prev.episodes ++ cur.episodes.take e⟩ ::
          correctGo ⟨cur.name, cur.episodes.drop e⟩ rest
      | none => prev :: correctGo cur rest

/-- The year-boundary correction pass (template.ts lines 238-260). -/
def correct : List CatalogSeason → List CatalogSeason
  | [] => []
  | first :: rest => correctGo first rest

/-- The full byYear partition: the year-season walk followed by the
boundary correction pass (which is skipped in `copy_year` mode). -/
def yearSeasons (copy_year : Bool) (eps : List Ep) : List CatalogSeason :=
  if copy_year then yearSeasonsRaw copy_year eps
  else correct (yearSeasonsRaw copy_year eps)

/-- The preferred-partition policy (template.ts lines 262-264):
`games.length > 1 && episodes.length / games.length >= 5 ? 'games' :
'years'`, with JS real division. -/
def preferredSeasons (eps : List Ep) : SeasonType :=
  if 1 < (gameSeasons eps).length ∧
      (5 : ℚ) ≤ (eps.length : ℚ) / ((gameSeasons eps).length : ℚ)
  then .games else .years

/-- A built catalog: the full episode list, both partitions and the
preferred partition selector, as assembled by `catalog.create`. -/
structure Catalog where
  episodes : List Ep
  years : List CatalogSeason
  games : List CatalogSeason
  preferred : SeasonType
  deriving Repr, DecidableEq

/-- `catalog.create` on an already-fetched episode list. -/
def createCatalog (copy_year : Bool) (eps : List Ep) : Catalog :=
  { episodes := eps,
    years := yearSeasons copy_year eps,
    games := gameSeasons eps,
    preferred := preferredSeasons eps }

/-- `catalog.seasons[seasonType]`. -/
def Catalog.seasonsOf (c : Catalog) : SeasonType → List CatalogSeason
  | .years => c.years
  | .games => c.games

/-- A sample episode with id `i`, associated to the game named `g`. -/
def mkEp (i : Nat) (g : String) : Ep :=
  { id := i,
    guid := "2300-" ++ toString i,
    name := "Episode " ++ toString i,
    publish_date := "2019-01-01 12:00:00",
    time := 1546300800000 + i,
    associations := [⟨g, "https://www.giantbomb.com/game/3030-1/"⟩] }

/-- Ten episodes split over two games. -/
def eps10 : List Ep :=
  (List.range 10).map (fun i => mkEp i (if i < 5 then "A" else "B"))

/-- Nine episodes split over two games. -/
def eps9 : List Ep :=
  (List.range 9).map (fun i => mkEp i (if i < 5 then "A" else "B"))

/-- C3: the preferred partition of a built catalog is `games` exactly when
the byWork partition has more than one season and the ratio of episode
count to work-season count is at least 5; in particular 2 work-seasons
with 10 episodes (ratio 5.0) select `games` while 2 work-seasons with 9
episodes (ratio 4.5) select `years`. -/
theorem preferred_partition_spec :
    (∀ (cy : Bool) (eps : List Ep),
      (createCatalog cy eps).preferred = SeasonType.games ↔
        1 < (createCatalog cy eps).games.length ∧
          (5 : ℚ) ≤ ((createCatalog cy eps).episodes.length : ℚ) /
            ((createCatalog cy eps).games.length : ℚ)) ∧
    (createCatalog false eps10).preferred = SeasonType.games ∧
    (createCatalog false eps9).preferred = SeasonType.years ∧
    (createCatalog false eps10).games.length = 2 ∧
    (createCatalog false eps10).episodes.length = 10 ∧
    (createCatalog false eps9).games.length = 2 ∧
    (createCatalog false eps9).episodes.length = 9 := by
  refine ⟨?_, ?_, ?_, ?_, ?_, ?_, ?_⟩
  · intro cy eps
    show preferredSeasons eps = SeasonType.games ↔
      1 < (gameSeasons eps).length ∧
        (5 : ℚ) ≤ (eps.length : ℚ) / ((gameSeasons eps).length : ℚ)
    unfold preferredSeasons
    by_cases h : 1 < (gameSeasons eps).length ∧
        (5 : ℚ) ≤ (eps.length : ℚ) / ((gameSeasons eps).length : ℚ)
    · rw [if_pos h]
      exact iff_of_true rfl h
    · rw [if_neg h]
      exact iff_of_false (fun hcon => SeasonType.noConfusion hcon) h
  · show preferredSeasons eps10 = SeasonType.games
    have hg : (gameSeasons eps10).length = 2 := by decide
    have he : eps10.length = 10 := by decide
    unfold preferredSeasons
    rw [if_pos]
    rw [hg, he]
    norm_num
  · show preferredSeasons eps9 = SeasonType.years
    have hg : (gameSeasons eps9).length = 2 := by decide
    have he : eps9.length = 9 := by decide
    unfold preferredSeasons
    rw [if_neg]
    rw [hg, he]
    norm_num
  · decide
  · decide
  · decide
  · decide

/-! ## Partition completeness (C6) -/

lemma yearSeasonsGo_flatten (cy : Bool) (eps : List Ep) :
    ∀ (curName : String) (curEps : List Ep),
      ((yearSeasonsGo cy curName curEps false eps).map
        CatalogSeason.episodes).flatten = curEps ++ eps := by
  induction eps with
  | nil =>
    intro curName curEps
    simp [yearSeasonsGo]
  | cons e rest ih =>
    intro curName curEps
    rw [yearSeasonsGo]
    by_cases h1 : epYear e = curName
    · rw [if_pos h1, ih]
      simp
    · rw [if_neg h1]
      by_cases h2 : (cy || !(strContainsCI e.name curName)) = true
      · rw [if_pos h2]
        simp only [if_neg (Bool.false_ne_true)]
        rw [List.map_cons, List.flatten_cons, ih]
        simp
      · rw [if_neg h2, ih]
        simp

lemma correctGo_flatten (rest : List CatalogSeason) :
    ∀ prev : CatalogSeason,
      ((correctGo prev rest).map CatalogSeason.episodes).flatten =
        prev.episodes ++ (rest.map CatalogSeason.episodes).flatten := by
  induction rest with
  | nil =>
    intro prev
    simp [correctGo]
  | cons cur rest' ih =>
    intro prev
    rw [correctGo]
    cases hl : prev.episodes.getLast? with
    | none => simp [ih]
    | some pl =>
      dsimp only
      cases hb : findBreak pl.time cur.episodes with
      | none => simp [ih]
      | some e =>
        dsimp only
        rw [List.map_cons, List.flatten_cons, ih]
        dsimp only
        rw [List.map_cons, List.flatten_cons]
        rw [List.append_assoc, ← List.append_assoc (cur.episodes.take e),
          List.take_append_drop]

lemma correct_flatten (S : List CatalogSeason) :
    ((correct S).map CatalogSeason.episodes).flatten =
      (S.map CatalogSeason.episodes).flatten := by
  match S with
  | [] => rfl
  | first :: rest =>
    rw [correct, correctGo_flatten]
    simp

lemma addToGameSeason_flatten (n : String) (e : Ep) :
    ∀ gs : List CatalogSeason,
      List.Perm ((addToGameSeason gs n e).map CatalogSeason.episodes).flatten
        ((gs.map CatalogSeason.episodes).flatten ++ [e]) := by
  intro gs
  induction gs with
  | nil => simp [addToGameSeason]
  | cons s rest ih =>
    rw [addToGameSeason]
    by_cases h : s.name = n
    · rw [if_pos h]
      simp only [List.map_cons, List.flatten_cons, List.append_assoc]
      exact List.Perm.append_left s.episodes List.perm_append_comm
    · rw [if_neg h]
      simp only [List.map_cons, List.flatten_cons, List.append_assoc]
      exact List.Perm.append_left s.episodes ih

lemma gameSeasons_foldl_flatten (eps : List Ep) :
    ∀ gs : List CatalogSeason,
      List.Perm
        (((eps.foldl (fun acc e => addToGameSeason acc (gameOf e) e) gs).map
          CatalogSeason.episodes).flatten)
        ((gs.map CatalogSeason.episodes).flatten ++ eps) := by
  induction eps with
  | nil => intro gs; simp
  | cons e rest ih =>
    intro gs
    rw [List.foldl_cons]
    refine (ih (addToGameSeason gs (gameOf e) e)).trans ?_
    have h := (addToGameSeason_flatten (gameOf e) e gs).append_right rest
    refine h.trans ?_
    simp

/-- C6 counterexample: a single episode whose name contains the internal
`__stub__` sentinel is folded into the sentinel season before any real
year season exists, so it appears in no season of the byYear partition:
the union of the byYear seasons' items differs from the full episode
list. -/
theorem partition_completeness_cex :
    ((createCatalog false
        [⟨1, "2300-1", "__stub__", "2020-01-01 12:00:00", 1577880000000, []⟩]).years.map
      CatalogSeason.episodes).flatten ≠
    (createCatalog false
        [⟨1, "2300-1", "__stub__", "2020-01-01 12:00:00", 1577880000000, []⟩]).episodes := by
  decide

/-- C6 (amended): for any episode list whose first episode is not captured
by the `__stub__` sentinel season (its year label is not the sentinel and,
unless `copy_year` is set, its name does not contain the sentinel), the
byYear seasons' items concatenate to exactly the full episode list, and
the byWork seasons' items are a permutation of the full episode list (each
item in exactly one season of each partition). -/
theorem partition_completeness (cy : Bool) (eps : List Ep)
    (hstub : ∀ e, eps.head? = some e → epYear e ≠ "__stub__" ∧
      (cy = true ∨ strContainsCI e.name "__stub__" = false)) :
    ((createCatalog cy eps).years.map CatalogSeason.episodes).flatten = eps ∧
    List.Perm ((createCatalog cy eps).games.map CatalogSeason.episodes).flatten
      eps := by
  constructor
  · show ((yearSeasons cy eps).map CatalogSeason.episodes).flatten = eps
    have hraw :
        ((yearSeasonsRaw cy eps).map CatalogSeason.episodes).flatten = eps := by
      cases eps with
      | nil => rfl
      | cons e rest =>
        obtain ⟨hy, hm⟩ := hstub e rfl
        rw [yearSeasonsRaw, yearSeasonsGo, if_neg hy, if_pos ?side]
        case side =>
          rcases hm with hcy | hns
          · rw [hcy]; rfl
          · rw [hns]; cases cy <;> rfl
        rw [if_pos rfl]
        exact yearSeasonsGo_flatten cy rest (epYear e) [e]
    unfold yearSeasons
    by_cases hcy : cy = true
    · rw [if_pos hcy]; exact hraw
    · rw [if_neg hcy, correct_flatten]; exact hraw
  · show List.Perm ((gameSeasons eps).map CatalogSeason.episodes).flatten eps
    have h := gameSeasons_foldl_flatten eps []
    simpa [gameSeasons] using h

/-- Witness for `partition_completeness`: on the ten-episode two-game
catalog, the byYear items concatenate to the episode list and the byWork
items are a permutation of it. -/
theorem partition_completeness_witness :
    ((createCatalog false eps10).years.map CatalogSeason.episodes).flatten
      = eps10 ∧
    List.Perm
      ((createCatalog false eps10).games.map CatalogSeason.episodes).flatten
      eps10 :=
  partition_completeness false eps10 (by decide)

/-! ## Boundary-correction idempotence (C7)

An already-settled partition — one in which no adjacent season pair admits
a break point — is left unchanged by `correctGo`.  The main lemma shows
the output of `correctGo` on a time-sorted partition is always settled. -/

/-- Episode order by parsed publish date. -/
def timeLE (a b : Ep) : Prop := a.time ≤ b.time

instance (a b : Ep) : Decidable (timeLE a b) := by
  unfold timeLE; infer_instance

/-- All consecutive pairs starting at `(a, head of rest)` fail the break
condition relative to `pl`. -/
def pairsFail (pl : Int) : Ep → List Ep → Prop
  | _, [] => True
  | a, b :: rest => ¬ breakCond pl a b ∧ pairsFail pl b rest

/-- All consecutive pairs of the list fail the break condition. -/
def listPairsFail (pl : Int) : List Ep → Prop
  | [] => True
  | a :: rest => pairsFail pl a rest

/-- The break-point search between two adjacent seasons, as performed by
the correction pass (`none` when the previous season is empty, mirroring
the JS `NaN` comparisons). -/
def optBreak (a b : CatalogSeason) : Option Nat :=
  match a.episodes.getLast? with
  | none => none
  | some pl => findBreak pl.time b.episodes

/-- A partition in which no adjacent season pair admits a break point. -/
def settled : List CatalogSeason → Prop
  | a :: b :: t => optBreak a b = none ∧ settled (b :: t)
  | _ => True

lemma findBreakGo_eq_none {pl : Int} : ∀ {a : Ep} {l : List Ep},
    findBreakGo pl a l = none ↔ pairsFail pl a l := by
  intro a l
  induction l generalizing a with
  | nil => simp [findBreakGo, pairsFail]
  | cons b rest ih =>
    rw [findBreakGo, pairsFail]
    by_cases h : breakCond pl a b
    · simp [h]
    · simp [h, ih]

lemma findBreak_eq_none {pl : Int} : ∀ {l : List Ep},
    findBreak pl l = none ↔ listPairsFail pl l := by
  intro l
  cases l with
  | nil => simp [findBreak, listPairsFail]
  | cons a rest =>
    rw [findBreak, listPairsFail]
    simp [findBreakGo_eq_none]

lemma pairsFail_mono {pl pl' : Int} (hle : pl' ≤ pl) :
    ∀ {a : Ep} {l : List Ep}, pairsFail pl a l → pairsFail pl' a l := by
  intro a l
  induction l generalizing a with
  | nil => intro _; trivial
  | cons b rest ih =>
    intro h
    refine ⟨fun hcon => h.1 ⟨?_, hcon.2⟩, ih h.2⟩
    have := hcon.1
    unfold breakCond at *
    omega

lemma pairsFail_far {pl : Int} :
    ∀ {a : Ep} {l : List Ep}, pl + monthMs ≤ a.time →
      (∀ x ∈ l, pl + monthMs ≤ x.time) → pairsFail pl a l := by
  intro a l
  induction l generalizing a with
  | nil => intro _ _; trivial
  | cons b rest ih =>
    intro ha hl
    refine ⟨fun hcon => ?_, ih (hl b (by simp)) (fun x hx => hl x (by simp [hx]))⟩
    have := hcon.1
    unfold breakCond at hcon
    omega

lemma listPairsFail_far {pl : Int} {l : List Ep}
    (h : ∀ x ∈ l, pl + monthMs ≤ x.time) : listPairsFail pl l := by
  cases l with
  | nil => trivial
  | cons a rest =>
    exact pairsFail_far (h a (by simp)) (fun x hx => h x (by simp [hx]))

lemma pairsFail_append {pl : Int} {a : Ep} : ∀ {t u : List Ep},
    pairsFail pl a (t ++ u) ↔ pairsFail pl a t ∧ pairsFail pl (t.getLastD a) u := by
  intro t u
  induction t generalizing a with
  | nil => simp [pairsFail, List.getLastD]
  | cons b t' ih =>
    rw [List.cons_append, pairsFail, pairsFail, ih]
    rw [List.getLastD_cons]
    simp [and_assoc]

lemma pairsFail_of_head {pl : Int} {a : Ep} {l : List Ep}
    (hhead : ∀ y, l.head? = some y → ¬ breakCond pl a y)
    (htail : listPairsFail pl l) : pairsFail pl a l := by
  cases l with
  | nil => trivial
  | cons y t => exact ⟨hhead y rfl, htail⟩

lemma getLast?_cons_eq_getLastD {x : Ep} {t : List Ep} :
    (x :: t).getLast? = some (t.getLastD x) := by
  induction t generalizing x with
  | nil => rfl
  | cons y t' ih => rw [List.getLast?_cons_cons, ih, List.getLastD_cons]

lemma head?_append_cons_eq {α : Type} (pre : List α) (a : α) (u v : List α) :
    (pre ++ a :: u).head? = (pre ++ a :: v).head? := by
  cases pre <;> rfl

lemma head_time_le {l : List Ep} (hs : List.Pairwise timeLE l) {y : Ep}
    (hy : l.head? = some y) {z : Ep} (hz : z ∈ l) : y.time ≤ z.time := by
  cases l with
  | nil => simp at hy
  | cons w t =>
    cases hy
    rcases List.mem_cons.mp hz with rfl | hz
    · exact le_refl _
    · exact (List.pairwise_cons.mp hs).1 z hz

lemma findBreakGo_some_decomp {pl : Int} :
    ∀ {l : List Ep} {x : Ep} {o : Nat}, findBreakGo pl x l = some o →
      ∃ pre a b post, x :: l = pre ++ a :: b :: post ∧ o = pre.length ∧
        breakCond pl a b ∧ listPairsFail pl (pre ++ [a]) := by
  intro l
  induction l with
  | nil => intro x o h; simp [findBreakGo] at h
  | cons b rest ih =>
    intro x o h
    rw [findBreakGo] at h
    by_cases hc : breakCond pl x b
    · rw [if_pos hc] at h
      cases h
      exact ⟨[], x, b, rest, rfl, rfl, hc, trivial⟩
    · rw [if_neg hc] at h
      obtain ⟨o', ho', rfl⟩ := Option.map_eq_some'.mp h
      obtain ⟨pre', a', b', post', heq, hlen, hbc, hfail⟩ := ih ho'
      refine ⟨x :: pre', a', b', post', by rw [List.cons_append, ← heq], by simp [hlen], hbc, ?_⟩
      show pairsFail pl x (pre' ++ [a'])
      refine pairsFail_of_head ?_ hfail
      intro y hy
      have hhead : (pre' ++ [a']).head? = some b := by
        rw [head?_append_cons_eq pre' a' [] (b' :: post'), ← heq]
        rfl
      rw [hy] at hhead
      cases hhead
      exact hc

lemma findBreak_some_decomp {pl : Int} {l : List Ep} {e : Nat}
    (h : findBreak pl l = some e) :
    ∃ pre a b post, l = pre ++ a :: b :: post ∧ e = pre.length + 1 ∧
      breakCond pl a b ∧ listPairsFail pl (pre ++ [a]) := by
  cases l with
  | nil => simp [findBreak] at h
  | cons x rest =>
    rw [findBreak] at h
    obtain ⟨o, ho, rfl⟩ := Option.map_eq_some'.mp h
    obtain ⟨pre, a, b, post, heq, rfl, hbc, hfail⟩ := findBreakGo_some_decomp ho
    exact ⟨pre, a, b, post, heq, rfl, hbc, hfail⟩

lemma take_break {pre : List Ep} {a : Ep} {rest : List Ep} :
    (pre ++ a :: rest).take (pre.length + 1) = pre ++ [a] := by
  have h1 : pre ++ a :: rest = (pre ++ [a]) ++ rest := by simp
  have h2 : pre.length + 1 = (pre ++ [a]).length := by simp
  rw [h1, h2, List.take_left]

lemma drop_break {pre : List Ep} {a : Ep} {rest : List Ep} :
    (pre ++ a :: rest).drop (pre.length + 1) = rest := by
  have h1 : pre ++ a :: rest = (pre ++ [a]) ++ rest := by simp
  have h2 : pre.length + 1 = (pre ++ [a]).length := by simp
  rw [h1, h2, List.drop_left]

/-- The episodes that `correctGo` will prepend onto the head of its output
beyond the current previous season: the moved prefix of the next season,
when a break point exists. -/
def headPadEps (prev : CatalogSeason) : List CatalogSeason → List Ep
  | [] => []
  | cur :: _ =>
    match prev.episodes.getLast? with
    | none => []
    | some pl =>
      match findBreak pl.time cur.episodes with
      | some e => cur.episodes.take e
      | none => []

lemma correctGo_head (rest : List CatalogSeason) (prev : CatalogSeason) :
    ∃ tail, correctGo prev rest =
      ⟨prev.name, prev.episodes ++ headPadEps prev rest⟩ :: tail := by
  cases rest with
  | nil =>
    refine ⟨[], ?_⟩
    rw [correctGo, headPadEps]
    simp
  | cons cur rest' =>
    rw [correctGo, headPadEps]
    cases hl : prev.episodes.getLast? with
    | none => exact ⟨correctGo cur rest', by simp⟩
    | some pl =>
      dsimp only
      cases hb : findBreak pl.time cur.episodes with
      | none => exact ⟨correctGo cur rest', by simp⟩
      | some e => exact ⟨correctGo ⟨cur.name, cur.episodes.drop e⟩ rest', rfl⟩

lemma headPadEps_subset {prev : CatalogSeason} {rest : List CatalogSeason} :
    ∀ x ∈ headPadEps prev rest, x ∈ (rest.map CatalogSeason.episodes).flatten := by
  intro x hx
  cases rest with
  | nil => simp [headPadEps] at hx
  | cons cur rest' =>
    rw [headPadEps] at hx
    cases hl : prev.episodes.getLast? with
    | none => rw [hl] at hx; simp at hx
    | some pl =>
      rw [hl] at hx
      dsimp only at hx
      cases hb : findBreak pl.time cur.episodes with
      | none => rw [hb] at hx; simp at hx
      | some e =>
        rw [hb] at hx
        dsimp only at hx
        have : x ∈ cur.episodes := List.take_subset e cur.episodes hx
        simp [this]

lemma listPairsFail_mono {pl pl' : Int} (hle : pl' ≤ pl) {l : List Ep}
    (h : listPairsFail pl l) : listPairsFail pl' l := by
  cases l with
  | nil => trivial
  | cons a t => exact pairsFail_mono hle h

lemma monthMs_le_longGapMs : monthMs ≤ longGapMs := by decide

/-- On a time-sorted partition, the output of `correctGo` is settled: no
adjacent pair of output seasons admits a further break point. -/
lemma settled_correctGo :
    ∀ (rest : List CatalogSeason) (prev : CatalogSeason),
      prev.episodes ≠ [] → (∀ s ∈ rest, s.episodes ≠ []) →
      List.Pairwise timeLE
        (prev.episodes ++ (rest.map CatalogSeason.episodes).flatten) →
      settled (correctGo prev rest) := by
  intro rest
  induction rest with
  | nil =>
    intro prev _ _ _
    rw [correctGo]
    trivial
  | cons cur rest' ih =>
    intro prev hprev hrest hs
    have hs' : List.Pairwise timeLE
        (prev.episodes ++ (cur.episodes ++ (rest'.map CatalogSeason.episodes).flatten)) := by
      simpa using hs
    obtain ⟨hsPrev, hsRight, hsCross⟩ := List.pairwise_append.mp hs'
    obtain ⟨hsCur, hsFlat, hsCross2⟩ := List.pairwise_append.mp hsRight
    obtain ⟨c0, ct, hce⟩ : ∃ c0 ct, prev.episodes = c0 :: ct := by
      cases hp : prev.episodes with
      | nil => exact absurd hp hprev
      | cons c0 ct => exact ⟨c0, ct, rfl⟩
    have hpl : prev.episodes.getLast? = some (ct.getLastD c0) := by
      rw [hce]; exact getLast?_cons_eq_getLastD
    set pl : Ep := ct.getLastD c0 with hpldef
    have hplmem : pl ∈ prev.episodes := List.mem_of_mem_getLast? hpl
    rw [correctGo, hpl]
    dsimp only
    cases hb : findBreak pl.time cur.episodes with
    | none =>
      obtain ⟨tail, htail⟩ := correctGo_head rest' cur
      rw [htail]
      refine ⟨?_, ?_⟩
      · rw [optBreak, hpl]
        dsimp only
        rw [findBreak_eq_none]
        have hcurFail : listPairsFail pl.time cur.episodes := findBreak_eq_none.mp hb
        cases rest' with
        | nil =>
          rw [headPadEps]
          simpa using hcurFail
        | cons nxt rest'' =>
          obtain ⟨c0', ct', hce'⟩ : ∃ c0' ct', cur.episodes = c0' :: ct' := by
            cases hp : cur.episodes with
            | nil => exact absurd hp (hrest cur (by simp))
            | cons c0' ct' => exact ⟨c0', ct', rfl⟩
          have hplc : cur.episodes.getLast? = some (ct'.getLastD c0') := by
            rw [hce']; exact getLast?_cons_eq_getLastD
          set plc : Ep := ct'.getLastD c0' with hplcdef
          have hplcmem : plc ∈ cur.episodes := List.mem_of_mem_getLast? hplc
          have hplle : pl.time ≤ plc.time :=
            hsCross pl hplmem plc (List.mem_append_left _ hplcmem)
          rw [headPadEps, hplc]
          dsimp only
          cases hb2 : findBreak plc.time nxt.episodes with
          | none => simpa using hcurFail
          | some e' =>
            dsimp only
            obtain ⟨pre, a, b, post, hnxt_eq, he', hbc2, hfail2⟩ :=
              findBreak_some_decomp hb2
            rw [hnxt_eq, he', take_break]
            rw [hce']
            show pairsFail pl.time c0' (ct' ++ (pre ++ [a]))
            rw [pairsFail_append]
            constructor
            · rw [hce'] at hcurFail
              exact hcurFail
            · rw [← hplcdef]
              refine pairsFail_of_head ?_ (listPairsFail_mono hplle hfail2)
              intro y hy hcon
              have hpairNxt : List.Pairwise timeLE (pre ++ [a]) := by
                have hnxtPair : List.Pairwise timeLE nxt.episodes := by
                  have hnp : List.Pairwise timeLE
                      (nxt.episodes ++ (rest''.map CatalogSeason.episodes).flatten) := by
                    simpa using hsFlat
                  exact (List.pairwise_append.mp hnp).1
                have hsub : List.Sublist (pre ++ [a]) nxt.episodes := by
                  rw [hnxt_eq]
                  exact List.Sublist.append_left
                    ((List.nil_sublist (b :: post)).cons₂ a) pre
                exact hnxtPair.sublist hsub
              have hya : y.time ≤ a.time :=
                head_time_le hpairNxt hy (List.mem_append_right _ (by simp))
              have h1 : a.time - plc.time < monthMs := hbc2.1
              have h2 : longGapMs < y.time - plc.time := hcon.2
              have := monthMs_le_longGapMs
              omega
      · rw [← htail]
        exact ih cur (hrest cur (by simp))
          (fun s hss => hrest s (by simp [hss])) hsRight
    | some e =>
      dsimp only
      obtain ⟨pre, a, b, post, hcur_eq, he, hbc, _hmin⟩ := findBreak_some_decomp hb
      have hdrop : cur.episodes.drop e = b :: post := by
        rw [hcur_eq, he, drop_break]
      have htake : cur.episodes.take e = pre ++ [a] := by
        rw [hcur_eq, he, take_break]
      have hsortedL : List.Pairwise timeLE
          (cur.episodes.drop e ++ (rest'.map CatalogSeason.episodes).flatten) := by
        refine List.pairwise_append.mpr
          ⟨hsCur.sublist (List.drop_sublist e cur.episodes), hsFlat, ?_⟩
        intro x hx y hy
        exact hsCross2 x (List.drop_subset e cur.episodes hx) y hy
      obtain ⟨tail2, htail2⟩ := correctGo_head rest' ⟨cur.name, cur.episodes.drop e⟩
      rw [htail2]
      refine ⟨?_, ?_⟩
      · rw [optBreak]
        dsimp only
        have hglast : (prev.episodes ++ cur.episodes.take e).getLast? = some a := by
          rw [htake, ← List.append_assoc, List.getLast?_concat]
        rw [hglast]
        dsimp only
        rw [findBreak_eq_none]
        apply listPairsFail_far
        intro x hx
        have hxmem : x ∈ cur.episodes.drop e ++
            (rest'.map CatalogSeason.episodes).flatten := by
          rcases List.mem_append.mp hx with hl | hr
          · exact List.mem_append_left _ hl
          · exact List.mem_append_right _ (headPadEps_subset x hr)
        have hbhead : (cur.episodes.drop e ++
            (rest'.map CatalogSeason.episodes).flatten).head? = some b := by
          rw [hdrop]; rfl
        have hbx : b.time ≤ x.time := head_time_le hsortedL hbhead hxmem
        have h2 : longGapMs < b.time - a.time := hbc.2
        have := monthMs_le_longGapMs
        omega
      · rw [← htail2]
        refine ih ⟨cur.name, cur.episodes.drop e⟩ ?_
          (fun s hss => hrest s (by simp [hss])) ?_
        · show cur.episodes.drop e ≠ []
          rw [hdrop]
          exact List.cons_ne_nil b post
        · exact hsortedL

lemma correctGo_settled_id : ∀ (r : List CatalogSeason) (p : CatalogSeason),
    settled (p :: r) → correctGo p r = p :: r := by
  intro r
  induction r with
  | nil => intro p _; rfl
  | cons c r' ih =>
    intro p hset
    obtain ⟨hob, hset'⟩ := hset
    rw [correctGo]
    cases hl : p.episodes.getLast? with
    | none => rw [ih c hset']
    | some pl =>
      dsimp only
      have hfb : findBreak pl.time c.episodes = none := by
        rw [optBreak, hl] at hob
        exact hob
      rw [hfb]
      rw [ih c hset']

/-- C7: the year-boundary correction pass is idempotent: on any partition
whose seasons are nonempty and whose episodes are globally sorted by
publish timestamp (as produced by the year-season walk over the
date-sorted fetch), applying the pass twice gives the same result as
applying it once — the second application moves no episodes and leaves
every season unchanged. -/
theorem correction_idempotent (S : List CatalogSeason)
    (hne : ∀ s ∈ S, s.episodes ≠ [])
    (hsorted : List.Pairwise timeLE (S.map CatalogSeason.episodes).flatten) :
    correct (correct S) = correct S := by
  cases S with
  | nil => rfl
  | cons first rest =>
    have hset : settled (correctGo first rest) :=
      settled_correctGo rest first (hne first (by simp))
        (fun s hs => hne s (by simp [hs]))
        (by simpa using hsorted)
    obtain ⟨tail, htail⟩ := correctGo_head rest first
    rw [show correct (first :: rest) = correctGo first rest from rfl]
    rw [htail] at hset
    rw [htail]
    exact correctGo_settled_id tail _ hset

/-- Witness for `correction_idempotent`: a two-season partition in which
the first application moves the year-boundary episode (gap under a month
to the previous season's last item, over 10.5 months to the next item);
the second application changes nothing. -/
theorem correction_idempotent_witness :
    correct (correct
      [⟨"2019", [⟨1, "g1", "a", "2019-12-30 12:00:00", 0, []⟩]⟩,
       ⟨"2020", [⟨2, "g2", "b", "2020-01-02 12:00:00", 1000000, []⟩,
                 ⟨3, "g3", "c", "2021-01-20 12:00:00", 40000000000, []⟩]⟩]) =
    correct
      [⟨"2019", [⟨1, "g1", "a", "2019-12-30 12:00:00", 0, []⟩]⟩,
       ⟨"2020", [⟨2, "g2", "b", "2020-01-02 12:00:00", 1000000, []⟩,
                 ⟨3, "g3", "c", "2021-01-20 12:00:00", 40000000000, []⟩]⟩] :=
  correction_idempotent
    [⟨"2019", [⟨1, "g1", "a", "2019-12-30 12:00:00", 0, []⟩]⟩,
     ⟨"2020", [⟨2, "g2", "b", "2020-01-02 12:00:00", 1000000, []⟩,
               ⟨3, "g3", "c", "2021-01-20 12:00:00", 40000000000, []⟩]⟩]
    (by decide) (by decide)

/-! ## Season and episode lookup (src/commands/utils/catalog.ts,
`findSeason` / `findEpisode`)

`api.video.get(guid)` is modelled as returning the catalog episode
carrying that guid (the remote API's guid-keyed video lookup).  JS
`Number(season)` distinguishing numeric strings from names is modelled by
the `SeasonSel` sum; matching season names against `RegExp(season, 'ig')`
is the case-insensitive substring containment of `strContainsCI`. -/

/-- A season selector: a numeric season (`Number(season)` is not `NaN`)
or a free-form name. -/
inductive SeasonSel where
  | num (n : Nat)
  | name (s : String)
  deriving Repr, DecidableEq

/-- The text `${season}` from which the season regex is built. -/
def SeasonSel.str : SeasonSel → String
  | .num n => toString n
  | .name s => s

/-- JS falsiness of the `season` option (`undefined`, `0` and the empty
string are falsy). -/
def seasonFalsy : Option SeasonSel → Bool
  | none => true
  | some (.num 0) => true
  | some (.name "") => true
  | some _ => false

/-- 1-based JS array indexing `arr[n - 1]`: `none` for `n = 0` (JS index
`-1`) and out-of-range indices. -/
def nthSeason (l : List CatalogSeason) (n : Nat) : Option CatalogSeason :=
  if n = 0 then none else l.get? (n - 1)

/-- JS `findIndex(...) + 1`: 0 when there is no match. -/
def jsFindIdxSucc {α : Type} (p : α → Bool) (l : List α) : Nat :=
  ((l.findIdx? p).map (· + 1)).getD 0

/-- `CatalogSeasonReference`. -/
structure SeasonRef where
  seasonType : SeasonType
  seasonNumber : Nat
  seasonName : String
  seasonCount : Nat
  seasonEpisodeCount : Nat
  showEpisodeCount : Nat
  deriving Repr, DecidableEq

/-- `CatalogEpisodeReference`. -/
structure EpisodeRef where
  video : Ep
  seasonType : SeasonType
  seasonNumber : Nat
  seasonName : String
  seasonEpisodeNumber : Nat
  showEpisodeNumber : Nat
  seasonEpisodeCount : Nat
  showEpisodeCount : Nat
  seasonCount : Nat
  deriving Repr, DecidableEq

/-- The numeric half of `findSeason`'s lookup (template.ts lines 290-300):
a numeric selector indexes 1-based into the requested partition; if that
index is absent, the numeric text is matched against byYear season names.
A name selector skips this step entirely. -/
def locateNumeric (cat : Catalog) (sel : SeasonSel) (st : SeasonType) :
    Option (SeasonType × Nat × CatalogSeason) :=
  match sel with
  | .num n =>
    match nthSeason (cat.seasonsOf st) n with
    | some cs => some (st, n, cs)
    | none =>
      match cat.years.findIdx? (fun s => strContainsCI s.name sel.str) with
      | some i =>
        match cat.years.get? i with
        | some cs => some (.years, i + 1, cs)
        | none => none
      | none => none
  | .name _ => none

/-- The byWork fallback of `findSeason`'s lookup (template.ts lines
301-307): match the selector text against byWork season names. -/
def locateGames (cat : Catalog) (sel : SeasonSel) :
    Option (SeasonType × Nat × CatalogSeason) :=
  match cat.games.findIdx? (fun s => strContainsCI s.name sel.str) with
  | some i =>
    match cat.games.get? i with
    | some cs => some (.games, i + 1, cs)
    | none => none
  | none => none

/-- The full lookup chain of `findSeason`: numeric (with byYear name
fallback), then byWork names. -/
def locateSeason (cat : Catalog) (sel : SeasonSel) (st : SeasonType) :
    Option (SeasonType × Nat × CatalogSeason) :=
  match locateNumeric cat sel st with
  | some r => some r
  | none => locateGames cat sel

/-- `catalog.findSeason` (template.ts lines 277-321).  The returned
reference's fields are all taken from the partition recorded in its
`seasonType`. -/
def findSeasonModel (cat : Catalog) (sel : SeasonSel) (st : SeasonType) :
    Option SeasonRef :=
  match locateSeason cat sel st with
  | none => none
  | some (stF, n, cs) =>
    some { seasonType := stF, seasonNumber := n, seasonName := cs.name,
           seasonCount := (cat.seasonsOf stF).length,
           seasonEpisodeCount := cs.episodes.length,
           showEpisodeCount := cat.episodes.length }

/-- The reference-assembly tail of `findEpisode` (template.ts lines
372-390): recover the season number by searching `seasons` for the season
containing the found video's guid, and build the episode reference from
that season; fail when no season contains it (`if (!seasonNumber) throw`). -/
def mkEpisodeRef (cat : Catalog) (video : Ep) (seasons : List CatalogSeason)
    (stF : SeasonType) : Option EpisodeRef :=
  match seasons.findIdx? (fun s => s.episodes.any (fun e => e.guid = video.guid)) with
  | none => none
  | some i =>
    match seasons.get? i with
    | none => none
    | some sZ =>
      some { video := video,
             seasonType := stF,
             seasonNumber := i + 1,
             seasonName := sZ.name,
             seasonEpisodeNumber :=
               jsFindIdxSucc (fun e => e.guid = video.guid) sZ.episodes,
             showEpisodeNumber :=
               jsFindIdxSucc (fun e => e.guid = video.guid) cat.episodes,
             seasonEpisodeCount := sZ.episodes.length,
             showEpisodeCount := cat.episodes.length,
             seasonCount := seasons.length }

/-- `catalog.findEpisode` (template.ts lines 323-390).  With no (falsy)
season, the episode indexes the whole show.  With a numeric season, the
requested partition is indexed 1-based, falling back to a byYear name
match (the fallback sets the working season type to `years` even when it
finds nothing); with a name season, or when the numeric path found no
video, the byWork names are tried — in that branch the source assigns
`seasons = catalog.seasons[seasonType]` *before* updating `seasonType` to
`games`, so the numbering fields come from the pre-update partition while
the recorded `seasonType` is `games`.  A zero episode faults in JS
(`episodes[-1].guid`), modelled as `none`. -/
def findEpisodeModel (cat : Catalog) (episode : Nat) (season : Option SeasonSel)
    (st : SeasonType) : Option EpisodeRef :=
  let phase1 : Option (Ep × List CatalogSeason × SeasonType) :=
    if seasonFalsy season then
      if episode = 0 then none
      else
        match cat.episodes.get? (episode - 1) with
        | some v => some (v, cat.seasonsOf st, st)
        | none => none
    else
      match season with
      | none => none
      | some sel =>
        let numStep : SeasonType × Option (Ep × List CatalogSeason) :=
          match sel with
          | .num n =>
            match nthSeason (cat.seasonsOf st) n with
            | some sobj =>
              (st,
               if 1 ≤ episode ∧ episode ≤ sobj.episodes.length then
                 (sobj.episodes.get? (episode - 1)).map
                   (fun v => (v, cat.seasonsOf st))
               else none)
            | none =>
              match cat.years.find? (fun s => strContainsCI s.name sel.str) with
              | some sobj =>
                (.years,
                 if 1 ≤ episode ∧ episode ≤ sobj.episodes.length then
                   (sobj.episodes.get? (episode - 1)).map
                     (fun v => (v, cat.seasonsOf .years))
                 else none)
              | none => (.years, none)
          | .name _ => (st, none)
        match numStep.2 with
        | some (v, seasons) => some (v, seasons, numStep.1)
        | none =>
          match cat.games.find? (fun s => strContainsCI s.name sel.str) with
          | some sobj =>
            if 1 ≤ episode ∧ episode ≤ sobj.episodes.length then
              (sobj.episodes.get? (episode - 1)).map
                (fun v => (v, cat.seasonsOf numStep.1, SeasonType.games))
            else none
          | none => none
  match phase1 with
  | none => none
  | some (video, seasons, stF) => mkEpisodeRef cat video seasons stF

/-! ## Anchor resolution (src/commands/processors/subprocessors/anchor.ts) -/

/-- The four anchor keywords. -/
inductive AnchorType where
  | from'
  | after'
  | to'
  | through'
  deriving Repr, DecidableEq

/-- Anchor direction. -/
inductive AnchorDirection where
  | forward
  | backward
  deriving Repr, DecidableEq

/-- Anchor structure: whole-show linear order or season-structured. -/
inductive AnchorStructure where
  | flat
  | season
  deriving Repr, DecidableEq

/-- The inclusivity/direction mapping of `anchor.find` (anchor.ts lines
81-93): the default is `from` (inclusive, forward); `after` clears
inclusivity; `to` clears inclusivity and reverses; `through` keeps
inclusivity and reverses. -/
def anchorFlags (t : AnchorType) : Bool × AnchorDirection :=
  match t with
  | .after' => (false, .forward)
  | .to' => (false, .backward)
  | .through' => (true, .backward)
  | .from' => (true, .forward)

/-- A resolved anchor (`AnchorResult`). -/
structure AnchorResult where
  episode : EpisodeRef
  inclusive : Bool
  struct : AnchorStructure
  direction : AnchorDirection
  deriving Repr, DecidableEq

/-- The season-only path of `anchor.find` (anchor.ts lines 102-132, and
identically the `S04`-style season-only identifier branch at lines
169-178): resolve the season, then resolve its episode number 1 — or its
episode count when the anchor keyword is `after` or `through` — and
return a season-structured anchor. -/
def findSeasonOnlyAnchor (cat : Catalog) (sel : SeasonSel) (st : SeasonType)
    (anchorType : AnchorType) : Option AnchorResult :=
  match findSeasonModel cat sel st with
  | none => none
  | some sref =>
    let episodeNumber :=
      if anchorType = .after' ∨ anchorType = .through' then
        sref.seasonEpisodeCount
      else 1
    match findEpisodeModel cat episodeNumber (some (.num sref.seasonNumber))
        sref.seasonType with
    | none => none
    | some eref =>
      some { episode := eref,
             inclusive := (anchorFlags anchorType).1,
             struct := .season,
             direction := (anchorFlags anchorType).2 }

/-- The `--episode <n>` path of `anchor.find` (anchor.ts lines 140-143)
with no season given: a flat-structured anchor at the show's n-th
episode. -/
def findEpisodeAnchor (cat : Catalog) (episodeNum : Nat) (st : SeasonType)
    (anchorType : AnchorType) : Option AnchorResult :=
  match findEpisodeModel cat episodeNum none st with
  | none => none
  | some eref =>
    some { episode := eref,
           inclusive := (anchorFlags anchorType).1,
           struct := .flat,
           direction := (anchorFlags anchorType).2 }

lemma get?_length_sub_one_eq_getLast? : ∀ {l : List Ep},
    l.get? (l.length - 1) = l.getLast? := by
  intro l
  induction l with
  | nil => rfl
  | cons x t ih =>
    cases t with
    | nil => rfl
    | cons y t' =>
      rw [List.getLast?_cons_cons, ← ih]
      simp

lemma locateGames_spec {cat : Catalog} {sel : SeasonSel}
    {r : SeasonType × Nat × CatalogSeason} (h : locateGames cat sel = some r) :
    nthSeason (cat.seasonsOf r.1) r.2.1 = some r.2.2 := by
  unfold locateGames at h
  cases h2 : cat.games.findIdx? (fun s => strContainsCI s.name sel.str) with
  | none => rw [h2] at h; exact absurd h (by simp)
  | some i =>
    rw [h2] at h
    dsimp only at h
    cases h3 : cat.games.get? i with
    | none => rw [h3] at h; exact absurd h (by simp)
    | some cs =>
      rw [h3] at h
      cases h
      show nthSeason (cat.seasonsOf .games) (i + 1) = some cs
      unfold nthSeason
      simpa using h3

lemma locateSeason_spec {cat : Catalog} {sel : SeasonSel} {st : SeasonType}
    {r : SeasonType × Nat × CatalogSeason} (h : locateSeason cat sel st = some r) :
    nthSeason (cat.seasonsOf r.1) r.2.1 = some r.2.2 := by
  unfold locateSeason at h
  cases hn : locateNumeric cat sel st with
  | some r' =>
    rw [hn] at h
    cases h
    unfold locateNumeric at hn
    cases sel with
    | name s => exact absurd hn (by simp)
    | num n =>
      dsimp only at hn
      cases h1 : nthSeason (cat.seasonsOf st) n with
      | some cs =>
        rw [h1] at hn
        cases hn
        exact h1
      | none =>
        rw [h1] at hn
        dsimp only at hn
        cases h2 : cat.years.findIdx?
            (fun s => strContainsCI s.name (SeasonSel.num n).str) with
        | none => rw [h2] at hn; exact absurd hn (by simp)
        | some i =>
          rw [h2] at hn
          dsimp only at hn
          cases h3 : cat.years.get? i with
          | none => rw [h3] at hn; exact absurd hn (by simp)
          | some cs =>
            rw [h3] at hn
            cases hn
            show nthSeason (cat.seasonsOf .years) (i + 1) = some cs
            unfold nthSeason
            simpa using h3
  | none =>
    rw [hn] at h
    exact locateGames_spec h

lemma findSeasonModel_spec {cat : Catalog} {sel : SeasonSel} {st : SeasonType}
    {sref : SeasonRef} (h : findSeasonModel cat sel st = some sref) :
    ∃ cs, nthSeason (cat.seasonsOf sref.seasonType) sref.seasonNumber = some cs ∧
      sref.seasonName = cs.name ∧
      sref.seasonEpisodeCount = cs.episodes.length := by
  unfold findSeasonModel at h
  cases hl : locateSeason cat sel st with
  | none => rw [hl] at h; exact absurd h (by simp)
  | some r =>
    obtain ⟨stF, n, cs⟩ := r
    rw [hl] at h
    cases h
    exact ⟨cs, locateSeason_spec hl, rfl, rfl⟩

lemma mkEpisodeRef_spec {cat : Catalog} {video : Ep}
    {seasons : List CatalogSeason} {stF : SeasonType} {eref : EpisodeRef}
    (h : mkEpisodeRef cat video seasons stF = some eref) :
    eref.video = video ∧ eref.seasonType = stF := by
  unfold mkEpisodeRef at h
  cases h1 : seasons.findIdx?
      (fun s => s.episodes.any (fun e => e.guid = video.guid)) with
  | none => rw [h1] at h; exact absurd h (by simp)
  | some i =>
    rw [h1] at h
    dsimp only at h
    cases h2 : seasons.get? i with
    | none => rw [h2] at h; exact absurd h (by simp)
    | some sZ =>
      rw [h2] at h
      cases h
      exact ⟨rfl, rfl⟩

lemma findEpisodeModel_numeric_hit {cat : Catalog} {n episode : Nat}
    {st : SeasonType} {cs : CatalogSeason}
    (hn : nthSeason (cat.seasonsOf st) n = some cs)
    (hfalsy : seasonFalsy (some (.num n)) = false)
    (hb : 1 ≤ episode ∧ episode ≤ cs.episodes.length) {eref : EpisodeRef}
    (h : findEpisodeModel cat episode (some (.num n)) st = some eref) :
    cs.episodes.get? (episode - 1) = some eref.video := by
  unfold findEpisodeModel at h
  rw [hfalsy] at h
  dsimp only at h
  rw [hn] at h
  dsimp only at h
  rw [if_pos hb] at h
  cases hv : cs.episodes.get? (episode - 1) with
  | none =>
    rw [List.get?_eq_none] at hv
    omega
  | some v =>
    rw [hv] at h
    simp only [Option.map_some', Bool.false_eq_true, if_false] at h
    exact congrArg some (mkEpisodeRef_spec h).1.symm

lemma get?_zero_eq_head? {l : List Ep} : l.get? 0 = l.head? := by
  cases l <;> rfl

/-- Two sample episodes and the catalog built from them: one 2019 year
season holding both. -/
def epA : Ep := ⟨1, "2300-1", "Alpha", "2019-01-10 12:00:00", 100, []⟩

/-- See `epA`. -/
def epB : Ep := ⟨2, "2300-2", "Beta", "2019-02-10 12:00:00", 200, []⟩

/-- See `epA`. -/
def catAB : Catalog := createCatalog false [epA, epB]

/-- C1 counterexample: for the forward-type anchor keyword `after`, the
season-only anchor resolves to the season's *last* item (id 2), not its
first item (id 1) as the claim states. -/
theorem season_anchor_cex :
    (findSeasonOnlyAnchor catAB (.num 1) .years .after').map
        (fun r => (r.episode.video.id, r.direction)) =
      some (2, .forward) ∧
    (nthSeason catAB.years 1).map
        (fun cs => cs.episodes.head?.map Ep.id) = some (some 1) := by
  constructor
  · decide
  · decide

/-- C1 (amended): a season-only anchor always has `season` structure and
the inclusivity/direction of its keyword, and — whenever the located
season is nonempty — resolves to the season's *last* item for `after` and
`through` and its *first* item for `from` and `to` (the boundary such that
inclusive anchors cover the whole season and exclusive anchors exclude
it). -/
theorem season_anchor_resolution (cat : Catalog) (sel : SeasonSel)
    (st : SeasonType) (at' : AnchorType) (r : AnchorResult)
    (h : findSeasonOnlyAnchor cat sel st at' = some r) :
    r.struct = .season ∧
    r.inclusive = (anchorFlags at').1 ∧ r.direction = (anchorFlags at').2 ∧
    ∃ sref cs, findSeasonModel cat sel st = some sref ∧
      nthSeason (cat.seasonsOf sref.seasonType) sref.seasonNumber = some cs ∧
      (cs.episodes ≠ [] →
        some r.episode.video =
          (if at' = .after' ∨ at' = .through' then cs.episodes.getLast?
           else cs.episodes.head?)) := by
  unfold findSeasonOnlyAnchor at h
  cases hfs : findSeasonModel cat sel st with
  | none => rw [hfs] at h; exact absurd h (by simp)
  | some sref =>
    rw [hfs] at h
    dsimp only at h
    obtain ⟨cs, hcs, _hname, hcount⟩ := findSeasonModel_spec hfs
    cases hfe : findEpisodeModel cat
        (if at' = .after' ∨ at' = .through' then sref.seasonEpisodeCount else 1)
        (some (.num sref.seasonNumber)) sref.seasonType with
    | none => rw [hfe] at h; exact absurd h (by simp)
    | some eref =>
      rw [hfe] at h
      cases h
      refine ⟨rfl, rfl, rfl, sref, cs, rfl, hcs, ?_⟩
      intro hne
      have hlen : 1 ≤ cs.episodes.length := by
        cases hcs' : cs.episodes with
        | nil => exact absurd hcs' hne
        | cons x t => simp [hcs']
      have hn0 : sref.seasonNumber ≠ 0 := by
        intro h0
        rw [h0] at hcs
        unfold nthSeason at hcs
        simp at hcs
      have hfalsy : seasonFalsy (some (.num sref.seasonNumber)) = false := by
        cases hsn : sref.seasonNumber with
        | zero => exact absurd hsn hn0
        | succ k => rfl
      by_cases hat : at' = .after' ∨ at' = .through'
      · rw [if_pos hat] at hfe ⊢
        rw [hcount] at hfe
        have hv := findEpisodeModel_numeric_hit hcs hfalsy
          ⟨hlen, le_refl _⟩ hfe
        rw [← get?_length_sub_one_eq_getLast?]
        exact hv.symm
      · rw [if_neg hat] at hfe ⊢
        have hv := findEpisodeModel_numeric_hit hcs hfalsy
          ⟨le_refl 1, hlen⟩ hfe
        rw [← get?_zero_eq_head?]
        exact hv.symm

/-- Witness for `season_anchor_resolution`: the `through` season-only
anchor on the two-episode catalog resolves to the last episode of the
2019 season, with season structure, inclusive, backward. -/
theorem season_anchor_resolution_witness :
    (⟨⟨epB, .years, 1, "2019", 2, 2, 2, 2, 1⟩, true,
        AnchorStructure.season, .backward⟩ : AnchorResult).struct =
      AnchorStructure.season ∧
    some ((⟨⟨epB, .years, 1, "2019", 2, 2, 2, 2, 1⟩, true,
        AnchorStructure.season, .backward⟩ : AnchorResult).episode.video) =
      some epB := by
  have h := season_anchor_resolution catAB (.num 1) .years .through'
    ⟨⟨epB, .years, 1, "2019", 2, 2, 2, 2, 1⟩, true,
      AnchorStructure.season, .backward⟩ (by decide)
  exact ⟨h.1, by decide⟩

/-- An episode associated to the game "Mario", and the catalog built from
it: its byYear partition is `["2019"]`, its byWork partition `["Mario"]`. -/
def epM : Ep :=
  ⟨7, "2300-7", "Mario Episode", "2019-03-01 12:00:00", 300,
    [⟨"Mario", "https://www.giantbomb.com/game/3030-9/"⟩]⟩

/-- See `epM`. -/
def catM : Catalog := createCatalog false [epM]

/-- C10: in `findEpisode`'s byWork-name fallback the source reads
`seasons = catalog.seasons[seasonType]` *before* assigning
`seasonType = 'games'`, so the returned reference records `seasonType =
games` while its season name/numbering come from the previously-tried
partition: resolving episode 1 of season "Mario" (requested partition
`years`) returns `seasonType = games` with `seasonName = "2019"`, a byYear
name — "Mario" being the only byWork season name. -/
theorem findEpisode_games_fallback_bug :
    (findEpisodeModel catM 1 (some (.name "Mario")) .years).map
        (fun r => (r.seasonType, r.seasonName, r.seasonNumber)) =
      some (.games, "2019", 1) ∧
    catM.games.map CatalogSeason.name = ["Mario"] ∧
    catM.years.map CatalogSeason.name = ["2019"] :=
  ⟨by decide, by decide, by decide⟩

/-! ## Range composition (download processor, anchor intersection loop)

The per-anchor included-id computation and the conjunctive intersection.
The JS loops index from a possibly negative start (faulting on a missing
video or an out-of-range season count); the filters below model the loops
over the actual array positions. -/

/-- The flat-structured branch of the anchor loop: the anchor episode's
index in the full episode order (JS `findIndex`, `-1` when absent),
shifted by one when exclusive, bounds the included positions. -/
def flatAnchoredIDs (cat : Catalog) (a : AnchorResult) : List Nat :=
  let eIdx : Int :=
    match cat.episodes.findIdx? (fun v => v.id = a.episode.video.id) with
    | some i => (i : Int)
    | none => -1
  if a.direction = .forward then
    let eStart := if a.inclusive then eIdx else eIdx + 1
    (cat.episodes.enum.filter (fun p => decide (eStart ≤ (p.1 : Int)))).map
      (fun p => p.2.id)
  else
    let eEnd := if a.inclusive then eIdx else eIdx - 1
    (cat.episodes.enum.filter (fun p => decide ((p.1 : Int) ≤ eEnd))).map
      (fun p => p.2.id)

/-- The season-structured branch of the anchor loop: forward anchors
include the tail of the anchor season (shifted by one when exclusive) and
every season after it up to the reference's season count; backward
anchors include every season before it and the anchor season's head. -/
def seasonAnchoredIDs (cat : Catalog) (a : AnchorResult) : List Nat :=
  let seasons := cat.seasonsOf a.episode.seasonType
  let sStart : Int := (a.episode.seasonNumber : Int) - 1
  let eIdx : Int := (a.episode.seasonEpisodeNumber : Int) - 1
  if a.direction = .forward then
    let eStart := if a.inclusive then eIdx else eIdx + 1
    (seasons.enum.filter (fun sp =>
        decide (sStart ≤ (sp.1 : Int) ∧
          (sp.1 : Int) < (a.episode.seasonCount : Int)))).flatMap
      (fun sp => (sp.2.episodes.enum.filter (fun ep =>
          decide ((sp.1 : Int) ≠ sStart ∨ eStart ≤ (ep.1 : Int)))).map
        (fun ep => ep.2.id))
  else
    let eEnd := if a.inclusive then eIdx else eIdx - 1
    (seasons.enum.filter (fun sp => decide ((sp.1 : Int) ≤ sStart))).flatMap
      (fun sp => (sp.2.episodes.enum.filter (fun ep =>
          decide ((sp.1 : Int) ≠ sStart ∨ (ep.1 : Int) ≤ eEnd))).map
        (fun ep => ep.2.id))

/-- One anchor's included-id set, by structure. -/
def anchoredIDsOf (cat : Catalog) (a : AnchorResult) : List Nat :=
  match a.struct with
  | .season => seasonAnchoredIDs cat a
  | .flat => flatAnchoredIDs cat a

/-- The anchor intersection loop: start from the full item-id set and
filter it by each anchor's included-id set in turn. -/
def includedIDs (cat : Catalog) (anchors : List AnchorResult) : List Nat :=
  anchors.foldl
    (fun acc a => acc.filter (fun i => (anchoredIDsOf cat a).contains i))
    (cat.episodes.map Ep.id)

lemma includedIDs_foldl_mem (cat : Catalog) :
    ∀ (anchors : List AnchorResult) (acc : List Nat) (i : Nat),
      (i ∈ anchors.foldl
        (fun acc a => acc.filter (fun i => (anchoredIDsOf cat a).contains i))
        acc) ↔
      i ∈ acc ∧ ∀ a ∈ anchors, i ∈ anchoredIDsOf cat a := by
  intro anchors
  induction anchors with
  | nil => intro acc i; simp
  | cons a rest ih =>
    intro acc i
    rw [List.foldl_cons, ih]
    rw [List.mem_filter, List.forall_mem_cons]
    constructor
    · intro h
      exact ⟨h.1.1, List.elem_iff.mp h.1.2, h.2⟩
    · intro h
      exact ⟨⟨h.1, List.elem_iff.mpr h.2.1⟩, h.2.2⟩

/-- Twenty episodes of a single game and year: item ids equal 1-based
positions. -/
def eps20 : List Ep := (List.range 20).map (fun i => mkEp (i + 1) "A")

/-- See `eps20`. -/
def cat20 : Catalog := createCatalog false eps20

/-- C2: each anchor's included-id set is computed independently and
intersected conjunctively into the running total started from the full
item-id set; on the 20-item flat catalog, `from` episode 5 with `through`
episode 10 yields exactly positions 5-10 inclusive, and `after` episode 5
with `to` episode 10 yields exactly positions 6-9. -/
theorem range_composition :
    (∀ (cat : Catalog) (anchors : List AnchorResult) (i : Nat),
      i ∈ includedIDs cat anchors ↔
        i ∈ cat.episodes.map Ep.id ∧
          ∀ a ∈ anchors, i ∈ anchoredIDsOf cat a) ∧
    (do
      let a1 ← findEpisodeAnchor cat20 5 .years .from'
      let a2 ← findEpisodeAnchor cat20 10 .years .through'
      pure (includedIDs cat20 [a1, a2])) = some [5, 6, 7, 8, 9, 10] ∧
    (do
      let a1 ← findEpisodeAnchor cat20 5 .years .after'
      let a2 ← findEpisodeAnchor cat20 10 .years .to'
      pure (includedIDs cat20 [a1, a2])) = some [6, 7, 8, 9] := by
  refine ⟨?_, by decide, by decide⟩
  intro cat anchors i
  exact includedIDs_foldl_mem cat anchors (cat.episodes.map Ep.id) i

/-! ## Request URL construction (src/api/calls/call.ts, `toURL`)

The external `querystring.encode` collaborator is modelled at its
interface as literal `key=value` pairs joined with `&` (percent-escaping
abstracted away).  `cacheGet` and `cacheResponse` both use `url.safe` —
the query built *before* the `api_key` parameter is added — as the cache
key. -/

/-- The `URL` record of call.ts (`tag` omitted: it is only a log label). -/
structure URLParts where
  full : String
  safe : String
  base : String
  deriving Repr, DecidableEq

/-- `key=value` pairs joined with `&`. -/
def joinSep (sep : Char) : List (List Char) → List Char
  | [] => []
  | [p] => p
  | p :: q :: rest => p ++ sep :: joinSep sep (q :: rest)

/-- `querystring.encode` modelled at its interface. -/
def encodeParams (params : List (String × String)) : String :=
  ⟨joinSep '&' (params.map (fun kv => kv.1.data ++ '=' :: kv.2.data))⟩

/-- `toURL` (call.ts lines 24-37): the safe query is encoded from the
filter parameters alone; the `api_key` parameter is appended (when the
configured credential is nonempty) only afterwards, into the full query.
Empty queries leave the bare base URL. -/
def toURL (base : String) (params : List (String × String)) (api_key : String) :
    URLParts :=
  let safeQuery := encodeParams params
  let fullParams := if api_key = "" then params else params ++ [("api_key", api_key)]
  let fullQuery := encodeParams fullParams
  { full := if fullQuery.data.length ≠ 0 then base ++ "?" ++ fullQuery else base,
    safe := if safeQuery.data.length ≠ 0 then base ++ "?" ++ safeQuery else base,
    base := base }

/-- `cacheGet` looks responses up under `url.safe` (call.ts line 53). -/
def cacheLookupKey (u : URLParts) : String := u.safe

/-- `cacheResponse` stores responses under `url.safe` (call.ts line 65). -/
def cacheStoreKey (u : URLParts) : String := u.safe

lemma isPrefix_append_sep {cred z1 z2 : List Char} {sep : Char}
    (hsep : sep ∉ cred) (h : cred <+: z1 ++ sep :: z2) : cred <+: z1 := by
  obtain ⟨t, ht⟩ := h
  by_cases hl : cred.length ≤ z1.length
  · have h1 : cred = z1.take cred.length := by
      have h2 := congrArg (List.take cred.length) ht
      rw [List.take_append_of_le_length hl] at h2
      rw [← h2, List.take_left]
    refine ⟨z1.drop cred.length, ?_⟩
    conv_rhs => rw [← List.take_append_drop cred.length z1]
    rw [← h1]
  · exfalso
    apply hsep
    push_neg at hl
    have hg1 : (cred ++ t).get? z1.length = cred.get? z1.length :=
      List.get?_append hl
    have hg2 : (z1 ++ sep :: z2).get? z1.length = some sep := by
      rw [List.get?_append_right (le_refl _)]
      simp
    rw [ht, hg2] at hg1
    exact List.get?_mem hg1.symm

lemma isInfix_append_sep {cred z1 z2 : List Char} {sep : Char}
    (hne : cred ≠ []) (hsep : sep ∉ cred) :
    cred <:+: z1 ++ sep :: z2 → cred <:+: z1 ∨ cred <:+: z2 := by
  induction z1 with
  | nil =>
    intro h
    obtain ⟨s, t, hst⟩ := h
    cases s with
    | nil =>
      exfalso
      simp only [List.nil_append] at hst
      have : cred <+: ([] : List Char) :=
        @isPrefix_append_sep cred [] z2 sep hsep ⟨t, by simpa using hst⟩
      rw [List.prefix_nil] at this
      exact hne this
    | cons x s' =>
      right
      simp only [List.cons_append] at hst
      injection hst with _ hrest
      exact ⟨s', t, hrest⟩
  | cons a z1' ih =>
    intro h
    obtain ⟨s, t, hst⟩ := h
    cases s with
    | nil =>
      left
      simp only [List.nil_append] at hst
      have hpre : cred <+: (a :: z1') ++ sep :: z2 := ⟨t, by simpa using hst⟩
      obtain ⟨t', ht'⟩ := isPrefix_append_sep hsep hpre
      exact ⟨[], t', by simpa using ht'⟩
    | cons x s' =>
      simp only [List.cons_append] at hst
      injection hst with _ hrest
      rcases ih ⟨s', t, hrest⟩ with hL | hR
      · left
        obtain ⟨s2, t2, h2⟩ := hL
        exact ⟨a :: s2, t2, by simp [← h2]⟩
      · right
        exact hR

lemma notInfix_joinSep {cred : List Char} {sep : Char}
    (hne : cred ≠ []) (hsep : sep ∉ cred) :
    ∀ pieces : List (List Char), (∀ p ∈ pieces, ¬ cred <:+: p) →
      ¬ cred <:+: joinSep sep pieces := by
  intro pieces
  induction pieces with
  | nil =>
    intro _ hcon
    obtain ⟨s, t, hst⟩ := hcon
    rw [joinSep] at hst
    simp only [List.append_eq_nil] at hst
    exact hne hst.1.2
  | cons p rest ih =>
    intro hp
    cases rest with
    | nil =>
      rw [joinSep]
      exact hp p (by simp)
    | cons q rest' =>
      rw [joinSep]
      intro hcon
      rcases isInfix_append_sep hne hsep hcon with hL | hR
      · exact hp p (by simp) hL
      · exact ih (fun x hx => hp x (by simp [hx])) hR

/-- C8: both the cache lookup key and the cache store key are the
credential-stripped safe URL: they are identical for any two values of the
credential, and — provided the credential is nonempty, contains none of
the URL separator characters, and does not itself occur in the base URL or
in any query parameter name or value — the credential string never occurs
in the persisted cache key. -/
theorem cache_key_credential_safety (base : String)
    (params : List (String × String)) (cred k1 k2 : String)
    (hne : cred.data ≠ [])
    (hamp : '&' ∉ cred.data) (heq : '=' ∉ cred.data) (hq : '?' ∉ cred.data)
    (hbase : ¬ cred.data <:+: base.data)
    (hparams : ∀ kv ∈ params,
      ¬ cred.data <:+: kv.1.data ∧ ¬ cred.data <:+: kv.2.data) :
    cacheLookupKey (toURL base params k1) = cacheStoreKey (toURL base params k2) ∧
    ¬ cred.data <:+: (cacheStoreKey (toURL base params cred)).data := by
  constructor
  · rfl
  · show ¬ cred.data <:+: (toURL base params cred).safe.data
    unfold toURL
    dsimp only
    by_cases hq0 : (encodeParams params).data.length ≠ 0
    · rw [if_pos hq0]
      intro hcon
      have hdata : (base ++ "?" ++ encodeParams params).data =
          base.data ++ '?' :: (encodeParams params).data := by
        rw [String.data_append, String.data_append, List.append_assoc]
        rfl
      rw [hdata] at hcon
      rcases isInfix_append_sep hne hq hcon with hL | hR
      · exact hbase hL
      · have hR' : cred.data <:+:
            joinSep '&' (params.map (fun kv => kv.1.data ++ '=' :: kv.2.data)) := hR
        refine notInfix_joinSep hne hamp
          (params.map (fun kv => kv.1.data ++ '=' :: kv.2.data)) ?_ hR'
        intro p hp
        obtain ⟨kv, hkv, rfl⟩ := List.mem_map.mp hp
        intro hcon2
        rcases isInfix_append_sep hne heq hcon2 with h1 | h2
        · exact (hparams kv hkv).1 h1
        · exact (hparams kv hkv).2 h2
    · rw [if_neg hq0]
      exact hbase

/-- Witness for `cache_key_credential_safety`: a video request with the
format parameter and the credential `SECRETAPIKEY`: lookup and store keys
agree for distinct credentials, and the credential does not occur in the
persisted key. -/
theorem cache_key_credential_safety_witness :
    cacheLookupKey (toURL "https://www.giantbomb.com/api/video/2300-1/"
        [("format", "json")] "SECRETAPIKEY") =
      cacheStoreKey (toURL "https://www.giantbomb.com/api/video/2300-1/"
        [("format", "json")] "OTHERKEY") ∧
    ¬ ("SECRETAPIKEY".data <:+:
        (cacheStoreKey (toURL "https://www.giantbomb.com/api/video/2300-1/"
          [("format", "json")] "SECRETAPIKEY")).data) :=
  cache_key_credential_safety "https://www.giantbomb.com/api/video/2300-1/"
    [("format", "json")] "SECRETAPIKEY" "SECRETAPIKEY" "OTHERKEY"
    (by decide) (by decide) (by decide) (by decide) (by decide) (by decide)

/-! ## Rate-limited request discipline (src/api/calls/call.ts,
`rateLimitGet`, C9)

A small-step semantics of interleaved `rateLimitGet` invocations under the
cooperative single-threaded model: each task runs atomically between
`await` points.  The suspension points are the initial `cacheGet`, each
`wait(500)` of the busy-flag spin loop, each `wait(delay)` of the
rate-limit loop, the second `cacheGet`, the HTTP GET itself, and
`cacheResponse`.  Crucially, the `finally` clause — which sets
`last_call = Date.now()` and `calling = false` — runs on *every* exit
path, including the early cache-hit returns, so a cache-hit task clears
the busy flag even when another task holds it. -/

/-- The atomic segments of one `rateLimitGet` invocation. -/
inductive CallPhase where
  | precheck
  | lockLoop
  | delayLoop
  | recheck
  | inCall
  | caching
  | done
  deriving Repr, DecidableEq

/-- The global client state: the `calling` busy flag, the `last_call`
timestamp, a monotone clock, each task's phase, and the log of HTTP call
start times. -/
structure ClientState where
  calling : Bool
  lastCall : Int
  clock : Int
  tasks : List CallPhase
  starts : List Int
  deriving Repr, DecidableEq

/-- One interleaved step of some task `i` at time `t ≥ clock`. -/
inductive Step (rate : Int) : ClientState → ClientState → Prop where
  /-- The initial `cacheGet` resolves to a hit: the task returns, and the
  `finally` clause sets `last_call` and clears `calling` — even when
  another task holds the flag. -/
  | precheckHit (s : ClientState) (i : Nat) (t : Int)
      (hc : s.clock ≤ t) (hp : s.tasks.get? i = some .precheck) :
      Step rate s ⟨false, t, t, s.tasks.set i .done, s.starts⟩
  /-- The initial `cacheGet` misses: the task enters the busy-flag loop. -/
  | precheckMiss (s : ClientState) (i : Nat) (t : Int)
      (hc : s.clock ≤ t) (hp : s.tasks.get? i = some .precheck) :
      Step rate s ⟨s.calling, s.lastCall, t, s.tasks.set i .lockLoop, s.starts⟩
  /-- The busy flag is set: wait 500 and re-check. -/
  | lockBusy (s : ClientState) (i : Nat) (t : Int)
      (hc : s.clock ≤ t) (hp : s.tasks.get? i = some .lockLoop)
      (hb : s.calling = true) :
      Step rate s ⟨s.calling, s.lastCall, t, s.tasks, s.starts⟩
  /-- The busy flag is clear: set it (atomically with the check) and enter
  the rate-limit delay loop. -/
  | lockAcquire (s : ClientState) (i : Nat) (t : Int)
      (hc : s.clock ≤ t) (hp : s.tasks.get? i = some .lockLoop)
      (hb : s.calling = false) :
      Step rate s ⟨true, s.lastCall, t, s.tasks.set i .delayLoop, s.starts⟩
  /-- `nextDelay` is still positive: wait and re-check. -/
  | delayWait (s : ClientState) (i : Nat) (t : Int)
      (hc : s.clock ≤ t) (hp : s.tasks.get? i = some .delayLoop)
      (hd : t < s.lastCall + rate) :
      Step rate s ⟨s.calling, s.lastCall, t, s.tasks, s.starts⟩
  /-- `nextDelay` has elapsed: proceed to the second `cacheGet`. -/
  | delayPass (s : ClientState) (i : Nat) (t : Int)
      (hc : s.clock ≤ t) (hp : s.tasks.get? i = some .delayLoop)
      (hd : s.lastCall + rate ≤ t) :
      Step rate s ⟨s.calling, s.lastCall, t, s.tasks.set i .recheck, s.starts⟩
  /-- The second `cacheGet` hits: return; the `finally` clause sets
  `last_call` and clears `calling`. -/
  | recheckHit (s : ClientState) (i : Nat) (t : Int)
      (hc : s.clock ≤ t) (hp : s.tasks.get? i = some .recheck) :
      Step rate s ⟨false, t, t, s.tasks.set i .done, s.starts⟩
  /-- The second `cacheGet` misses: the HTTP GET starts now. -/
  | recheckMiss (s : ClientState) (i : Nat) (t : Int)
      (hc : s.clock ≤ t) (hp : s.tasks.get? i = some .recheck) :
      Step rate s ⟨s.calling, s.lastCall, t, s.tasks.set i .inCall,
        s.starts ++ [t]⟩
  /-- The HTTP GET resolves successfully: proceed to `cacheResponse`. -/
  | callOk (s : ClientState) (i : Nat) (t : Int)
      (hc : s.clock ≤ t) (hp : s.tasks.get? i = some .inCall) :
      Step rate s ⟨s.calling, s.lastCall, t, s.tasks.set i .caching, s.starts⟩
  /-- The HTTP GET (or validation) fails: the `finally` clause runs. -/
  | callFail (s : ClientState) (i : Nat) (t : Int)
      (hc : s.clock ≤ t) (hp : s.tasks.get? i = some .inCall) :
      Step rate s ⟨false, t, t, s.tasks.set i .done, s.starts⟩
  /-- `cacheResponse` resolves: the `finally` clause runs. -/
  | cached (s : ClientState) (i : Nat) (t : Int)
      (hc : s.clock ≤ t) (hp : s.tasks.get? i = some .caching) :
      Step rate s ⟨false, t, t, s.tasks.set i .done, s.starts⟩

/-- States reachable from `n` interleaved invocations starting at the
module-initial state (`last_call = 0`, `calling = false`). -/
inductive Reachable (rate : Int) : ClientState → Prop where
  | init (n : Nat) :
      Reachable rate ⟨false, 0, 0, List.replicate n .precheck, []⟩
  | step {s s' : ClientState} :
      Reachable rate s → Step rate s s' → Reachable rate s'

/-- The number of HTTP calls currently in flight. -/
def inFlight (s : ClientState) : Nat := s.tasks.count .inCall

/-- C9: the at-most-one-in-flight invariant is violated under interleaved
executions.  Task 0 misses the cache, acquires the busy flag and starts an
HTTP call; task 1 then hits the cache, and its `finally` clause clears the
busy flag that task 0 still holds; task 2 then acquires the freed flag,
waits out the rate limit and starts a second HTTP call while task 0's call
is still in flight: a reachable state has two calls in flight. -/
theorem rate_limiter_two_in_flight :
    ∃ s : ClientState, Reachable 1000 s ∧ 2 ≤ inFlight s := by
  have h0 : Reachable 1000 ⟨false, 0, 0, List.replicate 3 .precheck, []⟩ :=
    .init 3
  have h1 := Reachable.step h0 (Step.precheckMiss _ 0 0 (by decide) (by decide))
  have h2 := Reachable.step h1 (Step.lockAcquire _ 0 0 (by decide) (by decide) (by decide))
  have h3 := Reachable.step h2 (Step.delayPass _ 0 1000 (by decide) (by decide) (by decide))
  have h4 := Reachable.step h3 (Step.recheckMiss _ 0 1000 (by decide) (by decide))
  have h5 := Reachable.step h4 (Step.precheckHit _ 1 1100 (by decide) (by decide))
  have h6 := Reachable.step h5 (Step.precheckMiss _ 2 1100 (by decide) (by decide))
  have h7 := Reachable.step h6 (Step.lockAcquire _ 2 1200 (by decide) (by decide) (by decide))
  have h8 := Reachable.step h7 (Step.delayPass _ 2 2100 (by decide) (by decide) (by decide))
  have h9 := Reachable.step h8 (Step.recheckMiss _ 2 2100 (by decide) (by decide))
  exact ⟨_, h9, by decide⟩

end GbShow
